import Mathlib

set_option maxRecDepth 100000

/-
Verification development for the totemarts-patcher-cli core.

This file shallowly embeds the parts of the Go source that the verified
properties concern:

  * `lib/patcher/hash.go`          — HashBytes / HashEqual (SHA-256 + EqualFold)
  * `lib/patcher/determine.go`     — DetermineActions and its helpers
  * `lib/patcher/instructions.go`  — DecodeInstructions
  * `cmd/tapatcher/main.go`        — the duplicate-path check of runVerifyPhase
  * the downloader (DownloadFile / doDownloadFile retry loop)
  * `lib/patcher/patcher.go`       — the RunPatcher phase sequencing

Go byte slices are modelled as `List Nat` (each element a byte value),
Go strings as Lean `String` (whose kernel model is a list of characters;
Go compares strings byte-wise and UTF-8 byte order coincides with
code-point order), Go `int64` as `Int`, and Go maps as association lists
with insert-overwrite semantics (iteration order never leaks into results
we reason about: the code sorts before returning).
-/

/-! ### ASCII case folding (strings.EqualFold restricted to ASCII)

`strings.EqualFold` performs Unicode simple case folding.  All hash
strings handled by this program are hexadecimal, for which Unicode
folding coincides with ASCII folding (no non-ASCII code point folds to a
hex digit), so the embedding folds ASCII letters only. -/

def asciiLower (c : Char) : Char :=
  if 65 ≤ c.toNat ∧ c.toNat ≤ 90 then Char.ofNat (c.toNat + 32) else c

/-- Model of Go `strings.EqualFold` (ASCII fragment). -/
def eqFold (s t : String) : Bool :=
  decide (s.data.map asciiLower = t.data.map asciiLower)

/-- Model of `HashEqual` from `lib/patcher/hash.go`: case-insensitive
comparison of two hex-encoded hashes. -/
def HashEqual (hash1 hash2 : String) : Bool := eqFold hash1 hash2

/-! ### SHA-256 (crypto/sha256 as used by HashBytes)

A direct executable implementation of FIPS 180-4 SHA-256 over byte
lists, with 32-bit words as `Nat` reduced mod 2^32. -/

def add32 (a b : Nat) : Nat := (a + b) % 4294967296

def rotr32 (n x : Nat) : Nat := ((x >>> n) ||| (x <<< (32 - n))) % 4294967296

def sha256Ch (x y z : Nat) : Nat := (x &&& y) ^^^ ((x ^^^ 4294967295) &&& z)

def sha256Maj (x y z : Nat) : Nat := (x &&& y) ^^^ (x &&& z) ^^^ (y &&& z)

def bigSigma0 (x : Nat) : Nat := rotr32 2 x ^^^ rotr32 13 x ^^^ rotr32 22 x

def bigSigma1 (x : Nat) : Nat := rotr32 6 x ^^^ rotr32 11 x ^^^ rotr32 25 x

def smallSigma0 (x : Nat) : Nat := rotr32 7 x ^^^ rotr32 18 x ^^^ (x >>> 3)

def smallSigma1 (x : Nat) : Nat := rotr32 17 x ^^^ rotr32 19 x ^^^ (x >>> 10)

def sha256K : List Nat :=
  [
    1116352408, 1899447441, 3049323471, 3921009573, 961987163,
    1508970993, 2453635748, 2870763221, 3624381080, 310598401,
    607225278, 1426881987, 1925078388, 2162078206, 2614888103,
    3248222580, 3835390401, 4022224774, 264347078, 604807628,
    770255983, 1249150122, 1555081692, 1996064986, 2554220882,
    2821834349, 2952996808, 3210313671, 3336571891, 3584528711,
    113926993, 338241895, 666307205, 773529912, 1294757372,
    1396182291, 1695183700, 1986661051, 2177026350, 2456956037,
    2730485921, 2820302411, 3259730800, 3345764771, 3516065817,
    3600352804, 4094571909, 275423344, 430227734, 506948616,
    659060556, 883997877, 958139571, 1322822218, 1537002063,
    1747873779, 1955562222, 2024104815, 2227730452, 2361852424,
    2428436474, 2756734187, 3204031479, 3329325298
  ]

def sha256H0 : List Nat :=
  [
    1779033703, 3144134277, 1013904242, 2773480762,
    1359893119, 2600822924, 528734635, 1541459225
  ]

/-- Append the SHA-256 padding: a 0x80 byte, zeros, and the bit length
as eight big-endian bytes, reaching a multiple of 64 bytes. -/
def sha256Pad (msg : List Nat) : List Nat :=
  let L := msg.length
  let padLen := (119 - L % 64) % 64
  let bits := 8 * L
  msg ++ 0x80 :: List.replicate padLen 0 ++
    [(bits >>> 56) % 256, (bits >>> 48) % 256, (bits >>> 40) % 256, (bits >>> 32) % 256,
     (bits >>> 24) % 256, (bits >>> 16) % 256, (bits >>> 8) % 256, bits % 256]

/-- Assemble big-endian 32-bit words from bytes (fuel-driven so that it
reduces in the kernel). -/
def bytesToWords : Nat → List Nat → List Nat
  | 0, _ => []
  | _, [] => []
  | fuel + 1, b0 :: rest =>
    let b1 := rest.getD 0 0
    let b2 := rest.getD 1 0
    let b3 := rest.getD 2 0
    ((b0 % 256) * 16777216 + (b1 % 256) * 65536 + (b2 % 256) * 256 + b3 % 256) ::
      bytesToWords fuel (rest.drop 3)

/-- One message-schedule extension step: append word W[n] computed from
W[n-16], W[n-15], W[n-7] and W[n-2]. -/
def scheduleStep (w : List Nat) : List Nat :=
  let n := w.length
  let s0 := smallSigma0 (w.getD (n - 15) 0)
  let s1 := smallSigma1 (w.getD (n - 2) 0)
  w ++ [add32 (add32 (w.getD (n - 16) 0) s0) (add32 (w.getD (n - 7) 0) s1)]

def extendSchedule : Nat → List Nat → List Nat
  | 0, w => w
  | fuel + 1, w => extendSchedule fuel (scheduleStep w)

structure Sha256State where
  a : Nat
  b : Nat
  c : Nat
  d : Nat
  e : Nat
  f : Nat
  g : Nat
  h : Nat
deriving Repr, DecidableEq

def sha256Round (st : Sha256State) (kw : Nat × Nat) : Sha256State :=
  let temp1 := (st.h + bigSigma1 st.e + sha256Ch st.e st.f st.g + kw.1 + kw.2) % 4294967296
  let temp2 := (bigSigma0 st.a + sha256Maj st.a st.b st.c) % 4294967296
  ⟨(temp1 + temp2) % 4294967296, st.a, st.b, st.c, (st.d + temp1) % 4294967296, st.e, st.f, st.g⟩

def sha256Block (hs : List Nat) (block : List Nat) : List Nat :=
  let w := extendSchedule 48 (bytesToWords 16 block)
  let st0 : Sha256State :=
    ⟨hs.getD 0 0, hs.getD 1 0, hs.getD 2 0, hs.getD 3 0, hs.getD 4 0, hs.getD 5 0, hs.getD 6 0, hs.getD 7 0⟩
  let st := (sha256K.zip w).foldl sha256Round st0
  [add32 (hs.getD 0 0) st.a, add32 (hs.getD 1 0) st.b, add32 (hs.getD 2 0) st.c,
   add32 (hs.getD 3 0) st.d, add32 (hs.getD 4 0) st.e, add32 (hs.getD 5 0) st.f,
   add32 (hs.getD 6 0) st.g, add32 (hs.getD 7 0) st.h]

/-- Split into 64-byte blocks (fuel-driven; the fuel is the list length,
which is ample because each round removes 64 bytes). -/
def chunks64 : Nat → List Nat → List (List Nat)
  | 0, _ => []
  | _, [] => []
  | fuel + 1, l => l.take 64 :: chunks64 fuel (l.drop 64)

def sha256Bytes (msg : List Nat) : List Nat :=
  let padded := sha256Pad msg
  let hFinal := (chunks64 padded.length padded).foldl sha256Block sha256H0
  (hFinal.map fun w => [(w >>> 24) % 256, (w >>> 16) % 256, (w >>> 8) % 256, w % 256]).flatten

def hexDigit (n : Nat) : Char := "0123456789abcdef".data.getD n '0'

def bytesToHex (bytes : List Nat) : String :=
  String.mk ((bytes.map fun b => [hexDigit (b / 16 % 16), hexDigit (b % 16)]).flatten)

/-- Model of `HashBytes` from `lib/patcher/hash.go`: lowercase hex
SHA-256 of a byte slice. -/
def HashBytes (data : List Nat) : String := bytesToHex (sha256Bytes data)

/-- Sanity check of the SHA-256 embedding against the standard test
vector for the empty message. -/
theorem hashBytes_empty_vector :
    HashBytes [] = "e3b0c44298fc1c149afbf4c8996fb92427ae41e4649b934ca495991b7852b855" := by decide

/-- Sanity check of the SHA-256 embedding against the standard test
vector for "abc" (bytes 97 98 99). -/
theorem hashBytes_abc_vector :
    HashBytes [97, 98, 99] =
      "ba7816bf8f01cfea414140de5dae2223b00361a396177a9cb410ff61f20015ad" := by decide

/-! ### Byte-lexicographic string order (Go strings.Compare)

Go compares strings byte-wise; for UTF-8 encoded strings byte order
equals code-point order, so character-list comparison is faithful. -/

def charListLe : List Char → List Char → Bool
  | [], _ => true
  | _ :: _, [] => false
  | a :: as, b :: bs =>
    if a.toNat < b.toNat then true
    else if b.toNat < a.toNat then false
    else charListLe as bs

/-- Model of `strings.Compare(a, b) <= 0`. -/
def goStrLe (a b : String) : Bool := charListLe a.data b.data

theorem char_eq_of_toNat_eq {a b : Char} (h : a.toNat = b.toNat) : a = b := by
  apply Char.eq_of_val_eq
  apply UInt32.eq_of_toBitVec_eq
  exact BitVec.eq_of_toNat_eq h

theorem charListLe_total : ∀ a b : List Char, charListLe a b = true ∨ charListLe b a = true := by
  intro a
  induction a with
  | nil => intro b; left; rfl
  | cons x xs ih =>
    intro b
    cases b with
    | nil => right; rfl
    | cons y ys =>
      simp only [charListLe]
      rcases ih ys with h | h <;> split_ifs <;> simp_all <;> omega

theorem charListLe_trans :
    ∀ a b c : List Char, charListLe a b = true → charListLe b c = true → charListLe a c = true := by
  intro a
  induction a with
  | nil => intro b c _ _; rfl
  | cons x xs ih =>
    intro b c hab hbc
    cases b with
    | nil => simp [charListLe] at hab
    | cons y ys =>
      cases c with
      | nil => simp [charListLe] at hbc
      | cons z zs =>
        simp only [charListLe] at hab hbc ⊢
        split_ifs at hab hbc ⊢ <;>
          first
            | rfl
            | omega
            | (exact ih ys zs hab hbc)
            | simp_all
            | (exfalso; omega)

theorem charListLe_antisymm :
    ∀ a b : List Char, charListLe a b = true → charListLe b a = true → a = b := by
  intro a
  induction a with
  | nil =>
    intro b _ hba
    cases b with
    | nil => rfl
    | cons y ys => simp [charListLe] at hba
  | cons x xs ih =>
    intro b hab hba
    cases b with
    | nil => simp [charListLe] at hab
    | cons y ys =>
      simp only [charListLe] at hab hba
      by_cases h1 : x.toNat < y.toNat
      · by_cases h2 : y.toNat < x.toNat
        · exfalso; omega
        · rw [if_neg h2, if_pos h1] at hba
          exact absurd hba Bool.false_ne_true
      · by_cases h2 : y.toNat < x.toNat
        · rw [if_neg h1, if_pos h2] at hab
          exact absurd hab Bool.false_ne_true
        · rw [if_neg h1, if_neg h2] at hab
          rw [if_neg h2, if_neg h1] at hba
          rw [char_eq_of_toNat_eq (show x.toNat = y.toNat by omega), ih ys hab hba]

/-! ### Go path.Clean / path.Join (the slash-separated "path" package)

`path.Clean` is the standard lexical algorithm: split on slashes, drop
empty and "." components, let ".." pop the previous component (".." is
kept at the front of a relative path and dropped at the root of a rooted
one).  `path.Join` joins the non-empty elements with slashes and Cleans
the result. -/

def splitSlashAux : List Char → List Char → List (List Char)
  | acc, [] => [acc.reverse]
  | acc, c :: rest =>
    if c = '/' then acc.reverse :: splitSlashAux [] rest
    else splitSlashAux (c :: acc) rest

def splitSlash (cs : List Char) : List (List Char) := splitSlashAux [] cs

/-- Process components left to right keeping a stack (most recent first). -/
def cleanStack (rooted : Bool) : List (List Char) → List (List Char) → List (List Char)
  | stack, [] => stack
  | stack, comp :: rest =>
    if comp = [] ∨ comp = ['.'] then cleanStack rooted stack rest
    else if comp = ['.', '.'] then
      match stack with
      | [] => if rooted then cleanStack rooted [] rest else cleanStack rooted [['.', '.']] rest
      | top :: stack1 =>
        if top = ['.', '.'] then cleanStack rooted (comp :: top :: stack1) rest
        else cleanStack rooted stack1 rest
    else cleanStack rooted (comp :: stack) rest

def joinComps : List (List Char) → List Char
  | [] => []
  | [c] => c
  | c :: rest => c ++ '/' :: joinComps rest

/-- Model of Go `path.Clean`, on character lists. -/
def cleanPath (cs : List Char) : List Char :=
  if cs = [] then ['.']
  else
    let rooted : Bool := cs.head? == some '/'
    let body := joinComps (cleanStack rooted [] (splitSlash cs)).reverse
    if rooted then '/' :: body
    else if body = [] then ['.'] else body

def goPathClean (p : String) : String := String.mk (cleanPath p.data)

/-- Model of Go `path.Join` for two elements: join the non-empty
elements with a slash and Clean the result. -/
def goPathJoin (a b : String) : String :=
  if a.data = [] ∧ b.data = [] then ("")
  else if a.data = [] then goPathClean b
  else String.mk (cleanPath (a.data ++ '/' :: b.data))

/-- A path component that Clean passes through unchanged: non-empty,
free of slashes, and neither "." nor "..". -/
def PlainComp (c : List Char) : Prop :=
  c ≠ [] ∧ (∀ x ∈ c, x ≠ '/') ∧ c ≠ ['.'] ∧ c ≠ ['.', '.']

theorem splitSlashAux_no_slash (acc : List Char) (s : List Char) (h : ∀ c ∈ s, c ≠ '/') :
    splitSlashAux acc s = [acc.reverse ++ s] := by
  induction s generalizing acc with
  | nil => simp [splitSlashAux]
  | cons c cs ih =>
    have hc : c ≠ '/' := h c (by simp)
    simp only [splitSlashAux, if_neg hc]
    rw [ih (c :: acc) (fun x hx => h x (by simp [hx]))]
    simp

theorem splitSlashAux_seg (acc : List Char) (pre rest : List Char) (h : ∀ c ∈ pre, c ≠ '/') :
    splitSlashAux acc (pre ++ '/' :: rest) = (acc.reverse ++ pre) :: splitSlashAux [] rest := by
  induction pre generalizing acc with
  | nil => simp [splitSlashAux]
  | cons c cs ih =>
    have hc : c ≠ '/' := h c (by simp)
    rw [List.cons_append]
    simp only [splitSlashAux, if_neg hc]
    show splitSlashAux (c :: acc) (cs ++ '/' :: rest) = _
    rw [ih (c :: acc) (fun x hx => h x (by simp [hx]))]
    simp

theorem cleanStack_plain (rooted : Bool) (stack : List (List Char)) (c : List Char)
    (rest : List (List Char)) (hc : PlainComp c) :
    cleanStack rooted stack (c :: rest) = cleanStack rooted (c :: stack) rest := by
  obtain ⟨h1, _, h3, h4⟩ := hc
  have hne : ¬(c = [] ∨ c = ['.']) := by
    rintro (h | h)
    · exact h1 h
    · exact h3 h
  simp only [cleanStack, if_neg hne, if_neg h4]

theorem plainComp_not_dots {c : List Char} (hno : ∀ x ∈ c, x ≠ '/') (hus : '_' ∈ c) :
    PlainComp c := by
  refine ⟨?_, hno, ?_, ?_⟩
  · rintro rfl; simp at hus
  · rintro rfl; simp at hus
  · rintro rfl; simp at hus

/-- Cleaning `a/s` for plain components leaves it unchanged. -/
theorem cleanPath_seg2 (a s : List Char) (ha : PlainComp a) (hs : PlainComp s) :
    cleanPath (a ++ '/' :: s) = a ++ '/' :: s := by
  have hne : a ++ '/' :: s ≠ [] := by
    cases a with
    | nil => exact absurd rfl ha.1
    | cons x xs => simp
  have hhead : ((a ++ '/' :: s).head? == some '/') = false := by
    cases h : a with
    | nil => exact absurd h ha.1
    | cons x xs =>
      have hx : x ≠ '/' := ha.2.1 x (by simp [h])
      simp [hx]
  have hsplit : splitSlash (a ++ '/' :: s) = [a, s] := by
    unfold splitSlash
    rw [splitSlashAux_seg [] a s ha.2.1]
    rw [splitSlashAux_no_slash [] s hs.2.1]
    simp
  unfold cleanPath
  rw [if_neg hne]
  simp only [hhead, hsplit]
  rw [cleanStack_plain _ [] a [s] ha, cleanStack_plain _ [a] s [] hs]
  have hbody : joinComps ([s, a] : List (List Char)).reverse = a ++ '/' :: s := by
    simp [joinComps]
  simp only [cleanStack, hbody]
  simp [hne]

/-- Cleaning `a/b/s` for plain components leaves it unchanged. -/
theorem cleanPath_seg3 (a b s : List Char) (ha : PlainComp a) (hb : PlainComp b)
    (hs : PlainComp s) :
    cleanPath (a ++ '/' :: b ++ '/' :: s) = a ++ '/' :: b ++ '/' :: s := by
  have hne : a ++ '/' :: b ++ '/' :: s ≠ [] := by
    cases a with
    | nil => exact absurd rfl ha.1
    | cons x xs => simp
  have hhead : ((a ++ '/' :: b ++ '/' :: s).head? == some '/') = false := by
    cases h : a with
    | nil => exact absurd h ha.1
    | cons x xs =>
      have hx : x ≠ '/' := ha.2.1 x (by simp [h])
      simp [hx]
  have hsplit : splitSlash (a ++ '/' :: b ++ '/' :: s) = [a, b, s] := by
    unfold splitSlash
    have hstep1 := splitSlashAux_seg [] a (b ++ '/' :: s) ha.2.1
    rw [show a ++ '/' :: b ++ '/' :: s = a ++ '/' :: (b ++ '/' :: s) by simp] at *
    rw [hstep1]
    rw [splitSlashAux_seg [] b s hb.2.1]
    rw [splitSlashAux_no_slash [] s hs.2.1]
    simp
  unfold cleanPath
  rw [if_neg hne]
  simp only [hhead, hsplit]
  rw [cleanStack_plain _ [] a [b, s] ha, cleanStack_plain _ [a] b [s] hb,
    cleanStack_plain _ [b, a] s [] hs]
  have hbody : joinComps ([s, b, a] : List (List Char)).reverse = a ++ '/' :: b ++ '/' :: s := by
    simp [joinComps]
  simp only [cleanStack, hbody]
  simp [hne]

/-! ### Go maps as association lists

`map[string]V` is modelled as an association list with insert-overwrite;
iteration order never reaches any result below, because the code sorts
by key before returning. -/

def containsKey {V : Type} (m : List (String × V)) (k : String) : Bool :=
  m.any fun kv => kv.1 == k

def lookupD {V : Type} (m : List (String × V)) (k : String) (dflt : V) : V :=
  match m.find? fun kv => kv.1 == k with
  | some kv => kv.2
  | none => dflt

def insertA {V : Type} (k : String) (v : V) : List (String × V) → List (String × V)
  | [] => [(k, v)]
  | kv :: rest => if kv.1 = k then (k, v) :: rest else kv :: insertA k v rest

theorem mem_insertA {V : Type} (k : String) (v : V) (m : List (String × V)) (kv : String × V)
    (h : kv ∈ insertA k v m) : kv = (k, v) ∨ kv ∈ m := by
  induction m with
  | nil => simp [insertA] at h; exact Or.inl h
  | cons kv2 rest ih =>
    by_cases hk : kv2.1 = k
    · simp only [insertA, if_pos hk] at h
      rcases List.mem_cons.mp h with h | h
      · exact Or.inl h
      · exact Or.inr (List.mem_cons_of_mem _ h)
    · simp only [insertA, if_neg hk] at h
      rcases List.mem_cons.mp h with h | h
      · exact Or.inr (by rw [h]; exact List.mem_cons_self _ _)
      · rcases ih h with h | h
        · exact Or.inl h
        · exact Or.inr (List.mem_cons_of_mem _ h)

theorem keys_insertA {V : Type} (k : String) (v : V) (m : List (String × V)) (k2 : String)
    (h : k2 ∈ (insertA k v m).map Prod.fst) : k2 = k ∨ k2 ∈ m.map Prod.fst := by
  rcases List.mem_map.mp h with ⟨kv, hkv, hfst⟩
  rcases mem_insertA k v m kv hkv with h2 | h2
  · left; rw [← hfst, h2]
  · right; rw [← hfst]; exact List.mem_map_of_mem Prod.fst h2

theorem insertA_keys_nodup {V : Type} (k : String) (v : V) (m : List (String × V))
    (h : (m.map Prod.fst).Nodup) : ((insertA k v m).map Prod.fst).Nodup := by
  induction m with
  | nil => simp [insertA]
  | cons kv rest ih =>
    simp only [List.map_cons, List.nodup_cons] at h
    by_cases hk : kv.1 = k
    · simp only [insertA, if_pos hk]
      simp only [List.map_cons, List.nodup_cons]
      exact ⟨by rw [← hk]; exact h.1, h.2⟩
    · simp only [insertA, if_neg hk]
      simp only [List.map_cons, List.nodup_cons]
      constructor
      · intro hmem
        rcases keys_insertA k v rest kv.1 hmem with h2 | h2
        · exact hk h2
        · exact h.1 h2
      · exact ih h.2

theorem insertA_forall {V : Type} (P : String × V → Prop) (k : String) (v : V)
    (m : List (String × V)) (hm : ∀ kv ∈ m, P kv) (hkv : P (k, v)) :
    ∀ kv ∈ insertA k v m, P kv := by
  intro kv hmem
  rcases mem_insertA k v m kv hmem with h | h
  · rw [h]; exact hkv
  · exact hm kv h

/-! ### Decimal formatting (fmt.Sprintf %05d for a non-negative index) -/

def digitChar (d : Nat) : Char := Char.ofNat (48 + d % 10)

/-- Decimal digits of `n`, most significant first (fuel-driven). -/
def natDecAux : Nat → Nat → List Char
  | 0, _ => []
  | fuel + 1, n => if n < 10 then [digitChar n] else natDecAux fuel (n / 10) ++ [digitChar (n % 10)]

def natDec (n : Nat) : List Char := natDecAux (n + 1) n

/-- Model of `fmt.Sprintf("%05d", n)` for `n ≥ 0`: decimal digits,
zero-padded on the left to width 5. -/
def pad5 (n : Nat) : String :=
  String.mk (List.replicate (5 - (natDec n).length) '0' ++ natDec n)

theorem digitChar_toNat (d : Nat) : (digitChar d).toNat = 48 + d % 10 := by
  have hv : (48 + d % 10).isValidChar := by
    left
    have : d % 10 < 10 := Nat.mod_lt _ (by omega)
    omega
  rw [digitChar, Char.ofNat, dif_pos hv]
  simp [Char.toNat, Char.ofNatAux, UInt32.toNat, BitVec.toNat_ofNat]

theorem natDecAux_digits (fuel n : Nat) :
    ∀ c ∈ natDecAux fuel n, 48 ≤ c.toNat ∧ c.toNat ≤ 57 := by
  induction fuel generalizing n with
  | zero => intro c hc; simp [natDecAux] at hc
  | succ fuel ih =>
    intro c hc
    simp only [natDecAux] at hc
    split at hc
    · simp only [List.mem_singleton] at hc
      subst hc
      rw [digitChar_toNat]
      have : n % 10 < 10 := Nat.mod_lt _ (by omega)
      omega
    · rcases List.mem_append.mp hc with h | h
      · exact ih (n / 10) c h
      · simp only [List.mem_singleton] at h
        subst h
        rw [digitChar_toNat]
        have : n % 10 < 10 := Nat.mod_lt _ (by omega)
        omega

theorem pad5_no_slash (n : Nat) : ∀ c ∈ (pad5 n).data, c ≠ '/' := by
  intro c hc
  simp only [pad5] at hc
  rcases List.mem_append.mp hc with h | h
  · rw [List.eq_of_mem_replicate h]
    decide
  · have := natDecAux_digits (n + 1) n c h
    intro heq
    subst heq
    revert this
    decide

theorem pad5_length (n : Nat) : 5 ≤ (pad5 n).data.length := by
  simp only [pad5, List.length_append, List.length_replicate]
  omega

/-! ### lib/patcher/determine.go

Data types and the action-planning function.  `Instruction` carries the
fields `DetermineActions` reads; the revision of `instructions.go`
declaring exactly this shape (optional `CompressedHash`, the three size
fields) is the one `determine.go` compiles against. -/

structure DownloadInstr where
  RemotePath : String
  LocalPath : String
  Checksum : String
  Size : Int
deriving Repr, DecidableEq

structure UpdateInstr where
  PatchPath : String
  FilePath : String
  TempFilename : String
  IsDelta : Bool
  Checksum : String
  Size : Int
deriving Repr, DecidableEq

structure DeterminedActions where
  ToDownload : List DownloadInstr
  ToUpdate : List UpdateInstr
  ToDelete : List String
deriving Repr, DecidableEq

structure BasicFileInfo where
  ModTime : Int
deriving Repr, DecidableEq

structure ManifestEntry where
  LastChange : Int
  LastChecksum : String
deriving Repr, DecidableEq

structure Manifest where
  Product : String
  Entries : List (String × ManifestEntry)
deriving Repr, DecidableEq

structure Instruction where
  Path : String
  OldHash : String
  NewHash : Option String
  CompressedHash : Option String
  DeltaHash : Option String
  FileSize : Int
  FullReplaceSize : Int
  DeltaSize : Int
deriving Repr, DecidableEq

/-- Intermediate state of the loop inside `DetermineActions`: the two
deduplication maps (download keyed by patch checksum, update keyed by
file path) and the deletion list. -/
structure DetState where
  toDownloadMap : List (String × DownloadInstr)
  toUpdateMap : List (String × UpdateInstr)
  toDelete : List String
deriving Repr, DecidableEq

/-- One iteration of the loop body of `DetermineActions` for the
instruction at index `instrIdx`. -/
def determineStep (existingFiles : List (String × BasicFileInfo))
    (fileChecksums : List (String × String)) (instrIdx : Nat) (instr : Instruction)
    (st : DetState) : DetState :=
  let found := containsKey existingFiles instr.Path
  match instr.NewHash, instr.CompressedHash with
  | none, _ => if found then { st with toDelete := st.toDelete ++ [instr.Path] } else st
  | some _, none => if found then { st with toDelete := st.toDelete ++ [instr.Path] } else st
  | some nh, some ch =>
    let fullPatchRemotePath := goPathJoin ("full") nh
    let fullPatchLocalPath := goPathJoin ("patch") nh
    let tempPath := goPathJoin ("patch/apply") (pad5 instrIdx ++ "_" ++ nh)
    let known := lookupD fileChecksums instr.Path ("")
    if found && HashEqual known nh then st
    else
      let fullCase : DetState :=
        { st with
          toDownloadMap :=
            insertA ch ⟨fullPatchRemotePath, fullPatchLocalPath, ch, instr.FullReplaceSize⟩
              st.toDownloadMap
          toUpdateMap :=
            insertA instr.Path ⟨fullPatchLocalPath, instr.Path, tempPath, false, nh, instr.FileSize⟩
              st.toUpdateMap }
      match instr.DeltaHash with
      | some dh =>
        if found && HashEqual known instr.OldHash then
          let deltaFilename := nh ++ "_from_" ++ instr.OldHash
          let deltaPatchRemotePath := goPathJoin ("delta") deltaFilename
          let deltaPatchLocalPath := goPathJoin ("patch") deltaFilename
          { st with
            toDownloadMap :=
              insertA dh ⟨deltaPatchRemotePath, deltaPatchLocalPath, dh, instr.DeltaSize⟩
                st.toDownloadMap
            toUpdateMap :=
              insertA instr.Path
                ⟨deltaPatchLocalPath, instr.Path, tempPath, true, nh, instr.FileSize⟩
                st.toUpdateMap }
        else fullCase
      | none => fullCase

def determineGo (existingFiles : List (String × BasicFileInfo))
    (fileChecksums : List (String × String)) : Nat → List Instruction → DetState → DetState
  | _, [], st => st
  | idx, instr :: rest, st =>
    determineGo existingFiles fileChecksums (idx + 1) rest
      (determineStep existingFiles fileChecksums idx instr st)

/-- Key order used when turning a Go map into a sorted slice. -/
def keyLe {V : Type} (a b : String × V) : Prop := charListLe a.1.data b.1.data = true

instance {V : Type} : DecidableRel (@keyLe V) :=
  fun a b => inferInstanceAs (Decidable (_ = true))

instance {V : Type} : IsTotal (String × V) keyLe :=
  ⟨fun a b => charListLe_total a.1.data b.1.data⟩

instance {V : Type} : IsTrans (String × V) keyLe :=
  ⟨fun _ _ _ h1 h2 => charListLe_trans _ _ _ h1 h2⟩

/-- Model of `mapToSortedSlice`: sort the entries by key, keep the
values (Go iterates the map in arbitrary order and then sorts; because
keys are unique the sorted result is independent of that order). -/
def mapToSortedSlice {V : Type} (m : List (String × V)) : List V :=
  (List.insertionSort keyLe m).map Prod.snd

def strLe (a b : String) : Prop := charListLe a.data b.data = true

instance : DecidableRel strLe :=
  fun a b => inferInstanceAs (Decidable (_ = true))

instance : IsTotal String strLe := ⟨fun a b => charListLe_total a.data b.data⟩

instance : IsTrans String strLe := ⟨fun _ _ _ h1 h2 => charListLe_trans _ _ _ h1 h2⟩

/-- Model of `DetermineActions` from `lib/patcher/determine.go`.  The
`manifest` parameter is received (as in the source) but not consulted. -/
def DetermineActions (instructions : List Instruction) (manifest : Manifest)
    (existingFiles : List (String × BasicFileInfo))
    (fileChecksums : List (String × String)) : DeterminedActions :=
  let final := determineGo existingFiles fileChecksums 0 instructions ⟨[], [], []⟩
  { ToDownload := mapToSortedSlice final.toDownloadMap
    ToUpdate := mapToSortedSlice final.toUpdateMap
    ToDelete := List.insertionSort strLe final.toDelete }

/-! ### lib/patcher/instructions.go — DecodeInstructions

The JSON parser (`encoding/json`) is an external library; it is passed
in as an oracle `unmarshal` mapping the payload bytes to either a parse
error or the list of raw records.  The hash check runs before the oracle
is consulted, exactly as in the source.  Path normalisation follows the
Linux build (`filepath.Separator = '/'`, `filepath.IsAbs` = leading
slash, `filepath.IsLocal` = the lexical locality check). -/

structure rawInstruction where
  Path : String
  OldHash : String
  NewHash : Option String
  CompressedHash : String
  DeltaHash : Option String
  HasDelta : Bool
deriving Repr, DecidableEq

/-- The decoded instruction shape produced by `instructions.go` (this
revision has a required `CompressedHash` and no size fields). -/
structure DecodedInstruction where
  Path : String
  OldHash : String
  NewHash : Option String
  CompressedHash : String
  DeltaHash : Option String
deriving Repr, DecidableEq

inductive DecodeError where
  | hashMismatch (expected got : String)
  | jsonError (msg : String)
  | absolutePath (path : String)
  | nonLocalPath (path : String)
  | hasDeltaButNoDeltaHash (path : String)
  | deltaHashButNoHasDelta (path : String)
deriving Repr, DecidableEq

/-- `strings.ReplaceAll(path, "\\", "/")`. -/
def replaceBackslash (s : String) : String :=
  String.mk (s.data.map fun c => if c = '\\' then '/' else c)

/-- `filepath.IsAbs` on Linux: the path starts with a slash. -/
def filepathIsAbs (p : String) : Bool :=
  match p.data with
  | '/' :: _ => true
  | _ => false

/-- `filepath.IsLocal` on Linux: non-empty, not absolute, and (after
Clean when dot components are present) neither ".." nor starting with
"../". -/
def filepathIsLocal (p : String) : Bool :=
  if filepathIsAbs p || p.data = [] then false
  else
    let parts := splitSlash p.data
    let hasDots := parts.any fun part => part = ['.'] || part = ['.', '.']
    let q := if hasDots then cleanPath p.data else p.data
    !(q = ['.', '.'] || q.take 3 = ['.', '.', '/'])

/-- The per-record validation and normalisation loop of
`DecodeInstructions`. -/
def decodeLoop : List rawInstruction → Except DecodeError (List DecodedInstruction)
  | [] => .ok []
  | ri :: rest =>
    let path := replaceBackslash ri.Path
    if filepathIsAbs path then .error (.absolutePath path)
    else if !filepathIsLocal path then .error (.nonLocalPath path)
    else if ri.HasDelta && ri.DeltaHash == none then .error (.hasDeltaButNoDeltaHash path)
    else if !ri.HasDelta && ri.DeltaHash != none then .error (.deltaHashButNoHasDelta path)
    else
      match decodeLoop rest with
      | .error e => .error e
      | .ok instrs =>
        .ok (⟨path, ri.OldHash, ri.NewHash, ri.CompressedHash, ri.DeltaHash⟩ :: instrs)

/-- Model of `DecodeInstructions` from `lib/patcher/instructions.go`:
verify the payload hash, parse, then validate each record. -/
def DecodeInstructions (unmarshal : List Nat → Except String (List rawInstruction))
    (jsonData : List Nat) (instructionsHash : String) :
    Except DecodeError (List DecodedInstruction) :=
  let checksum := HashBytes jsonData
  if !eqFold checksum instructionsHash then
    .error (.hashMismatch instructionsHash checksum)
  else
    match unmarshal jsonData with
    | .error e => .error (.jsonError e)
    | .ok raws => decodeLoop raws

/-! ### cmd/tapatcher/main.go — the duplicate-path check of runVerifyPhase

The verify phase walks the instruction list with a seen-set and fails on
the first path already seen. -/

def findDuplicateAux (seen : List String) : List Instruction → Option String
  | [] => none
  | instr :: rest =>
    if instr.Path ∈ seen then some instr.Path
    else findDuplicateAux (instr.Path :: seen) rest

/-- Model of the duplicate-path scan at the top of `runVerifyPhase`:
returns the offending path of the error
"got multiple entries for pX in instructions.json", or none. -/
def findDuplicate (instructions : List Instruction) : Option String :=
  findDuplicateAux [] instructions

/-! ### The downloader — DownloadFile / doDownloadFile

The retry loop and local-file recovery of `DownloadFile`, and the whole
of `doDownloadFile`, are embedded as a state function.  The network is
an oracle: for each attempt number and optional Range header it yields
either a transport failure of `http.DefaultClient.Do` (flagged with
whether the failure surfaces as an external cancellation — the
downloader converts its own request-timeout cancellation into a
non-cancellation error) or a response.  A response carries the status,
Content-Type, the body bytes that `io.Copy` manages to stream, and
whether the copy then fails (again flagged for cancellation; a stall
cancellation is converted to a non-cancellation error).  File contents
are byte lists; `expectedSize` and the running `offset` are `int64`
values modelled as `Int`.  Retry waits use `ℚ` for the exact value of
`float64(waitTime) * RetryWaitIncrementFactor` (exact for the factors
exercised here).  The external context is modelled as never cancelled:
an external cancellation only cuts the run short and is not needed for
the properties below.  The per-second statistics, the watchdog
goroutines and the registration map are concurrency plumbing with no
bearing on these properties and are not modelled. -/

inductive AttemptErr where
  | invalidOffset
  | doFail
  | canceled
  | rangeNotSupported
  | badStatus (code : Nat)
  | badContentType (ct : String)
  | copyFail
  | shortRead
  | checksumMismatch
  | outOfFuel
deriving Repr, DecidableEq

structure HttpResponse where
  status : Nat
  contentType : String
  body : List Nat
  copyErrCanceled : Option Bool
deriving Repr, DecidableEq

inductive DoResult where
  | fail (canceled : Bool)
  | resp (r : HttpResponse)
deriving Repr, DecidableEq

/-- The network oracle: attempt number and Range header (start byte and
inclusive end byte) to outcome of the HTTP GET. -/
def Server : Type := Nat → Option (Int × Int) → DoResult

/-- Mutable state threaded through attempts: file contents, bytes seen
by the hashing observer, and the running offset variable. -/
structure DlState where
  file : List Nat
  observer : List Nat
  offset : Int
deriving Repr, DecidableEq

/-- Model of `doDownloadFile`: one network attempt.  Returns the updated
state, whether an HTTP request was issued, and the attempt error if
any. -/
def doDownloadFile (server : Server) (attempt : Nat) (expectedChecksum : String)
    (expectedSize : Int) (st : DlState) : DlState × Bool × Option AttemptErr :=
  if st.offset ≥ expectedSize then
    (st, false, some .invalidOffset)
  else
    let range := if st.offset > 0 then some (st.offset, expectedSize - 1) else none
    match server attempt range with
    | .fail canceled => (st, true, some (if canceled then .canceled else .doFail))
    | .resp r =>
      if st.offset > 0 ∧ r.status = 200 then (st, true, some .rangeNotSupported)
      else if st.offset > 0 ∧ r.status ≠ 206 then (st, true, some (.badStatus r.status))
      else if ¬ st.offset > 0 ∧ r.status ≠ 200 then (st, true, some (.badStatus r.status))
      else if r.contentType ≠ "application/octet-stream" then
        (st, true, some (.badContentType r.contentType))
      else
        let st1 : DlState :=
          ⟨st.file ++ r.body, st.observer ++ r.body, st.offset + r.body.length⟩
        match r.copyErrCanceled with
        | some canceled => (st1, true, some (if canceled then .canceled else .copyFail))
        | none =>
          if st1.offset < expectedSize then (st1, true, some .shortRead)
          else if !HashEqual expectedChecksum (HashBytes st1.observer) then
            (st1, true, some .checksumMismatch)
          else (st1, true, none)

structure DownloadConfig where
  MaxAttempts : Nat
  RetryBaseDelay : ℚ
  RetryWaitIncrementFactor : ℚ
deriving Repr

/-- Observable outcome of a `DownloadFile` call: final error (`none`
means success), how many `doDownloadFile` attempts ran, how many HTTP
requests were issued, and the durations actually slept between
attempts. -/
structure DlOutcome where
  result : Option AttemptErr
  attempts : Nat
  requests : Nat
  waits : List ℚ
deriving Repr, DecidableEq

/-- The retry loop of `DownloadFile`.  The fuel argument only bounds the
recursion; `DownloadFile` passes `MaxAttempts + 1`, which the
`attempt > MaxAttempts` check makes unreachable (`outOfFuel` never
occurs). -/
def downloadLoop (cfg : DownloadConfig) (server : Server) (expectedChecksum : String)
    (expectedSize : Int) : Nat → DlState → Nat → ℚ → Nat → Nat → List ℚ → DlOutcome
  | 0, _, _, _, attempts, requests, waits => ⟨some .outOfFuel, attempts, requests, waits⟩
  | fuel + 1, st, attempt, waitTime, attempts, requests, waits =>
    match doDownloadFile server attempt expectedChecksum expectedSize st with
    | (st1, issued, errOpt) =>
      let attempts1 := attempts + 1
      let requests1 := requests + (if issued then 1 else 0)
      match errOpt with
      | none => ⟨none, attempts1, requests1, waits⟩
      | some e =>
        if attempt > cfg.MaxAttempts then ⟨some e, attempts1, requests1, waits⟩
        else if e = .canceled then ⟨some e, attempts1, requests1, waits⟩
        else
          let waitTime1 := waitTime * cfg.RetryWaitIncrementFactor
          downloadLoop cfg server expectedChecksum expectedSize fuel st1 (attempt + 1)
            waitTime1 attempts1 requests1 (waits ++ [waitTime1])

/-- Model of `DownloadFile`: recover state from the already-present
local file, then run the retry loop.  `initFile` is the pre-existing
content of the local file (empty for a newly created file). -/
def DownloadFile (cfg : DownloadConfig) (server : Server) (initFile : List Nat)
    (expectedChecksum : String) (expectedSize : Int) : DlOutcome :=
  let offset : Int := initFile.length
  if offset = expectedSize then
    if HashEqual expectedChecksum (HashBytes initFile) then
      ⟨none, 0, 0, []⟩
    else
      downloadLoop cfg server expectedChecksum expectedSize (cfg.MaxAttempts + 1)
        ⟨[], [], offset⟩ 1 cfg.RetryBaseDelay 0 0 []
  else if offset > expectedSize then
    downloadLoop cfg server expectedChecksum expectedSize (cfg.MaxAttempts + 1)
      ⟨[], [], offset⟩ 1 cfg.RetryBaseDelay 0 0 []
  else
    downloadLoop cfg server expectedChecksum expectedSize (cfg.MaxAttempts + 1)
      ⟨initFile, initFile, offset⟩ 1 cfg.RetryBaseDelay 0 0 []

/-! ### lib/patcher/patcher.go — RunPatcher phase sequencing

`RunPatcher` is straight-line effectful code; it is embedded as a
function from the outcomes of its effectful steps (each an optional
error) to the list of steps that actually execute plus the returned
error.  The progress-emitter goroutine only reports and is not part of
the trace.  Cooperative cancellation surfaces as an error of the phase
that observes it, so a cancelled run is a run whose verify, download or
apply outcome is an error. -/

inductive RunStep where
  | newXDelta
  | readManifest
  | mkdirs
  | verifyPhase
  | downloadPhase
  | applyPhase
  | removePatchDir
  | writeManifest
deriving Repr, DecidableEq

/-- Outcomes of the effectful steps of one run (`none` = success). -/
structure RunEnv where
  newXDeltaErr : Option String
  readManifestErr : Option String
  mkdirsErr : Option String
  verifyErr : Option String
  downloadErr : Option String
  applyErr : Option String
  removeErr : Option String
  writeErr : Option String
deriving Repr, DecidableEq

/-- Model of `RunPatcher`: the sequence of steps it executes and the
error it returns. -/
def RunPatcher (env : RunEnv) : List RunStep × Option String :=
  match env.newXDeltaErr with
  | some e => ([.newXDelta], some e)
  | none =>
  match env.readManifestErr with
  | some e => ([.newXDelta, .readManifest], some e)
  | none =>
  match env.mkdirsErr with
  | some e => ([.newXDelta, .readManifest, .mkdirs], some e)
  | none =>
  match env.verifyErr with
  | some e => ([.newXDelta, .readManifest, .mkdirs, .verifyPhase], some e)
  | none =>
  match env.downloadErr with
  | some e => ([.newXDelta, .readManifest, .mkdirs, .verifyPhase, .downloadPhase], some e)
  | none =>
  match env.applyErr with
  | some e =>
    ([.newXDelta, .readManifest, .mkdirs, .verifyPhase, .downloadPhase, .applyPhase], some e)
  | none =>
  match env.removeErr with
  | some e =>
    ([.newXDelta, .readManifest, .mkdirs, .verifyPhase, .downloadPhase, .applyPhase,
      .removePatchDir], some e)
  | none =>
  ([.newXDelta, .readManifest, .mkdirs, .verifyPhase, .downloadPhase, .applyPhase,
    .removePatchDir, .writeManifest], env.writeErr)

/-! ### Helper facts about the joined patch paths -/

theorem string_ext {a b : String} (h : a.data = b.data) : a = b := by
  cases a; cases b; simp_all

instance (c : List Char) : Decidable (PlainComp c) := by
  unfold PlainComp
  infer_instance

theorem goPathJoin_plain_seg (a s : String) (ha : PlainComp a.data) (hs : PlainComp s.data) :
    goPathJoin a s = String.mk (a.data ++ '/' :: s.data) := by
  unfold goPathJoin
  rw [if_neg (fun h => ha.1 h.1), if_neg ha.1]
  rw [cleanPath_seg2 a.data s.data ha hs]

theorem goPathJoin_full (nh : String) (h : PlainComp nh.data) :
    goPathJoin ("full") nh = "full/" ++ nh := by
  rw [goPathJoin_plain_seg ("full") nh (by decide) h]
  apply string_ext
  rw [String.data_append ("full/") nh]
  rfl

theorem goPathJoin_patch (nh : String) (h : PlainComp nh.data) :
    goPathJoin ("patch") nh = "patch/" ++ nh := by
  rw [goPathJoin_plain_seg ("patch") nh (by decide) h]
  apply string_ext
  rw [String.data_append ("patch/") nh]
  rfl

theorem goPathJoin_delta (nh : String) (h : PlainComp nh.data) :
    goPathJoin ("delta") nh = "delta/" ++ nh := by
  rw [goPathJoin_plain_seg ("delta") nh (by decide) h]
  apply string_ext
  rw [String.data_append ("delta/") nh]
  rfl

theorem goPathJoin_patchApply (s : String) (hs : PlainComp s.data) :
    goPathJoin ("patch/apply") s = "patch/apply/" ++ s := by
  unfold goPathJoin
  rw [if_neg (fun h => by simpa using h.1), if_neg (by simp)]
  rw [show ("patch/apply" : String).data ++ '/' :: s.data =
      "patch".data ++ '/' :: "apply".data ++ '/' :: s.data from rfl]
  rw [cleanPath_seg3 ("patch" : String).data ("apply" : String).data s.data (by decide) (by decide) hs]
  apply string_ext
  rw [String.data_append ("patch/apply/") s]
  rfl

theorem underscoreFrom_no_slash : ∀ x ∈ ("_from_" : String).data, x ≠ '/' := by decide

theorem underscore_no_slash : ∀ x ∈ ("_" : String).data, x ≠ '/' := by decide

theorem plainComp_delta_name (nh old : String) (hnh : PlainComp nh.data)
    (hold : ∀ c ∈ old.data, c ≠ '/') : PlainComp (nh ++ "_from_" ++ old).data := by
  have hdata : (nh ++ "_from_" ++ old).data = nh.data ++ "_from_".data ++ old.data := by
    rw [String.data_append (nh ++ "_from_") old, String.data_append nh ("_from_")]
  have hm : '_' ∈ nh.data ++ "_from_".data ++ old.data :=
    List.mem_append_left _ (List.mem_append_right _ (by decide))
  refine ⟨?_, ?_, ?_, ?_⟩
  · rw [hdata]
    intro h
    rw [h] at hm
    simp at hm
  · rw [hdata]
    intro x hx
    rcases List.mem_append.mp hx with hx | hx
    · rcases List.mem_append.mp hx with hx | hx
      · exact hnh.2.1 x hx
      · exact underscoreFrom_no_slash x hx
    · exact hold x hx
  · rw [hdata]
    intro h
    rw [h] at hm
    simp at hm
  · rw [hdata]
    intro h
    rw [h] at hm
    simp at hm

theorem plainComp_temp_name (idx : Nat) (nh : String) (hnh : PlainComp nh.data) :
    PlainComp (pad5 idx ++ "_" ++ nh).data := by
  have hdata : (pad5 idx ++ "_" ++ nh).data = (pad5 idx).data ++ "_".data ++ nh.data := by
    rw [String.data_append (pad5 idx ++ "_") nh, String.data_append (pad5 idx) ("_")]
  have hm : '_' ∈ (pad5 idx).data ++ "_".data ++ nh.data :=
    List.mem_append_left _ (List.mem_append_right _ (by decide))
  refine ⟨?_, ?_, ?_, ?_⟩
  · rw [hdata]
    intro h
    rw [h] at hm
    simp at hm
  · rw [hdata]
    intro x hx
    rcases List.mem_append.mp hx with hx | hx
    · rcases List.mem_append.mp hx with hx | hx
      · exact pad5_no_slash idx x hx
      · exact underscore_no_slash x hx
    · exact hnh.2.1 x hx
  · rw [hdata]
    intro h
    rw [h] at hm
    simp at hm
  · rw [hdata]
    intro h
    rw [h] at hm
    simp at hm

/-- C1: for every non-delete instruction (NewHash and CompressedHash
present, with hash strings that are plain path components), the loop
body of DetermineActions (i) emits nothing when the file exists and its
known checksum equals NewHash case-insensitively, (ii) otherwise, when
the file exists, DeltaHash is present and the known checksum equals
OldHash case-insensitively, emits a download of
delta/<NewHash>_from_<OldHash> to patch/<NewHash>_from_<OldHash> with
checksum DeltaHash and size DeltaSize plus a delta update, and (iii)
otherwise emits a download of full/<NewHash> to patch/<NewHash> with
checksum CompressedHash and size FullReplaceSize plus a non-delta
update; in both update cases the temp path is
patch/apply/<index, zero-padded to 5 digits>_<NewHash>. -/
theorem C1_determineActions_per_instruction
    (existingFiles : List (String × BasicFileInfo)) (fileChecksums : List (String × String))
    (st : DetState) (instrIdx : Nat) (instr : Instruction) (nh ch : String)
    (hnh : instr.NewHash = some nh) (hch : instr.CompressedHash = some ch)
    (hplain : PlainComp nh.data) (hold : ∀ c ∈ instr.OldHash.data, c ≠ '/') :
    (containsKey existingFiles instr.Path = true →
      HashEqual (lookupD fileChecksums instr.Path ("")) nh = true →
      determineStep existingFiles fileChecksums instrIdx instr st = st)
    ∧ (∀ dh, instr.DeltaHash = some dh →
        containsKey existingFiles instr.Path = true →
        HashEqual (lookupD fileChecksums instr.Path ("")) nh = false →
        HashEqual (lookupD fileChecksums instr.Path ("")) instr.OldHash = true →
        determineStep existingFiles fileChecksums instrIdx instr st =
          { st with
            toDownloadMap :=
              insertA dh
                ⟨"delta/" ++ (nh ++ "_from_" ++ instr.OldHash),
                 "patch/" ++ (nh ++ "_from_" ++ instr.OldHash), dh, instr.DeltaSize⟩
                st.toDownloadMap
            toUpdateMap :=
              insertA instr.Path
                ⟨"patch/" ++ (nh ++ "_from_" ++ instr.OldHash), instr.Path,
                 "patch/apply/" ++ (pad5 instrIdx ++ "_" ++ nh), true, nh, instr.FileSize⟩
                st.toUpdateMap })
    ∧ ((containsKey existingFiles instr.Path = false ∨
         HashEqual (lookupD fileChecksums instr.Path ("")) nh = false) →
       (instr.DeltaHash = none ∨ containsKey existingFiles instr.Path = false ∨
         HashEqual (lookupD fileChecksums instr.Path ("")) instr.OldHash = false) →
       determineStep existingFiles fileChecksums instrIdx instr st =
         { st with
           toDownloadMap :=
             insertA ch ⟨"full/" ++ nh, "patch/" ++ nh, ch, instr.FullReplaceSize⟩
               st.toDownloadMap
           toUpdateMap :=
             insertA instr.Path
               ⟨"patch/" ++ nh, instr.Path, "patch/apply/" ++ (pad5 instrIdx ++ "_" ++ nh),
                false, nh, instr.FileSize⟩
               st.toUpdateMap }) := by
  have hfl := goPathJoin_full nh hplain
  have hpt := goPathJoin_patch nh hplain
  have hdl := goPathJoin_delta (nh ++ "_from_" ++ instr.OldHash)
    (plainComp_delta_name nh instr.OldHash hplain hold)
  have hpd := goPathJoin_patch (nh ++ "_from_" ++ instr.OldHash)
    (plainComp_delta_name nh instr.OldHash hplain hold)
  have htm := goPathJoin_patchApply (pad5 instrIdx ++ "_" ++ nh)
    (plainComp_temp_name instrIdx nh hplain)
  refine ⟨?_, ?_, ?_⟩
  · intro hf he
    simp [determineStep, hnh, hch, hf, he]
  · intro dh hdh hf hne hoe
    simp [determineStep, hnh, hch, hdh, hf, hne, hoe, hdl, hpd, htm]
  · intro h1 h2
    rcases h1 with h1 | h1
    · rcases h2 with h2 | h2 | h2 <;>
        simp [determineStep, hnh, hch, h1, h2, hfl, hpt, htm] <;>
        cases hdh : instr.DeltaHash <;> simp [hdh, hfl, hpt, htm]
    · rcases h2 with h2 | h2 | h2 <;>
        simp [determineStep, hnh, hch, h1, h2, hfl, hpt, htm] <;>
        cases hdh : instr.DeltaHash <;> simp [hdh, hfl, hpt, htm]

/-- Witness for C1: the full-replacement branch evaluated for a missing
file at index 0. -/
theorem C1_determineActions_per_instruction_witness :
    determineStep [] [] 0 ⟨"a", "xy", some ("ab"), some ("cd"), none, 7, 5, 2⟩ ⟨[], [], []⟩ =
      { toDownloadMap := insertA ("cd") ⟨"full/" ++ "ab", "patch/" ++ "ab", "cd", 5⟩ [],
        toUpdateMap := insertA ("a") ⟨"patch/" ++ "ab", "a",
          "patch/apply/" ++ (pad5 0 ++ "_" ++ "ab"), false, "ab", 7⟩ [],
        toDelete := [] } :=
  (C1_determineActions_per_instruction [] [] ⟨[], [], []⟩ 0
      ⟨"a", "xy", some ("ab"), some ("cd"), none, 7, 5, 2⟩ "ab" "cd" rfl rfl (by decide)
      (by decide)).2.2 (Or.inl (by decide)) (Or.inl rfl)

/-- C9: DecodeInstructions verifies the payload before parsing: when the
SHA-256 hex digest of the raw bytes does not equal the supplied hash
case-insensitively it returns the hash-mismatch error (and hence no
instructions), and an instruction list is only produced when the digest
matches case-insensitively. -/
theorem C9_decode_verifies_hash (unmarshal : List Nat → Except String (List rawInstruction))
    (jsonData : List Nat) (instructionsHash : String) :
    (eqFold (HashBytes jsonData) instructionsHash = false →
      DecodeInstructions unmarshal jsonData instructionsHash =
        .error (.hashMismatch instructionsHash (HashBytes jsonData)))
    ∧ (∀ instrs, DecodeInstructions unmarshal jsonData instructionsHash = .ok instrs →
        eqFold (HashBytes jsonData) instructionsHash = true) := by
  constructor
  · intro h
    simp [DecodeInstructions, h]
  · intro instrs h
    by_contra hne
    rw [Bool.not_eq_true] at hne
    simp [DecodeInstructions, hne] at h

/-- Witness for C9: the empty payload against a non-matching hash
string. -/
theorem C9_decode_verifies_hash_witness :
    eqFold (HashBytes []) ("zz") = false ∧
      DecodeInstructions (fun _ => .ok []) [] ("zz") =
        .error (.hashMismatch ("zz") (HashBytes [])) :=
  ⟨by decide, (C9_decode_verifies_hash (fun _ => .ok []) [] ("zz")).1 (by decide)⟩

/-- C8: RunPatcher writes the manifest at most once, writes it only when
the xdelta lookup, manifest read, directory creation and the verify,
download and apply phases all succeeded (a cancelled run surfaces as a
phase error, hence never writes), removes the patch staging directory
only in that same success case, and the removal strictly precedes the
manifest write. -/
theorem C8_runPatcher_write_once_after_success (env : RunEnv) :
    ((RunPatcher env).1.count .writeManifest ≤ 1)
    ∧ (.writeManifest ∈ (RunPatcher env).1 ↔
        (env.newXDeltaErr = none ∧ env.readManifestErr = none ∧ env.mkdirsErr = none ∧
         env.verifyErr = none ∧ env.downloadErr = none ∧ env.applyErr = none ∧
         env.removeErr = none))
    ∧ (.removePatchDir ∈ (RunPatcher env).1 ↔
        (env.newXDeltaErr = none ∧ env.readManifestErr = none ∧ env.mkdirsErr = none ∧
         env.verifyErr = none ∧ env.downloadErr = none ∧ env.applyErr = none))
    ∧ (.writeManifest ∈ (RunPatcher env).1 →
        (RunPatcher env).1 =
          [.newXDelta, .readManifest, .mkdirs, .verifyPhase, .downloadPhase, .applyPhase,
           .removePatchDir, .writeManifest]) := by
  obtain ⟨e1, e2, e3, e4, e5, e6, e7, e8⟩ := env
  cases e1 <;> cases e2 <;> cases e3 <;> cases e4 <;> cases e5 <;> cases e6 <;> cases e7 <;>
    simp [RunPatcher, List.count_cons]

/-- Witness for C8: the all-success run executes every step, ending with
the staging removal and then the manifest write. -/
theorem C8_runPatcher_write_once_after_success_witness :
    RunStep.writeManifest ∈ (RunPatcher ⟨none, none, none, none, none, none, none, none⟩).1 ∧
      (RunPatcher ⟨none, none, none, none, none, none, none, none⟩).1 =
        [.newXDelta, .readManifest, .mkdirs, .verifyPhase, .downloadPhase, .applyPhase,
         .removePatchDir, .writeManifest] :=
  ⟨by decide,
   (C8_runPatcher_write_once_after_success ⟨none, none, none, none, none, none, none, none⟩).2.2.2
     (by decide)⟩

/-! ### Concrete network oracles used to evaluate the downloader -/

/-- A network where every GET fails in transport (not a cancellation). -/
def alwaysFailServer : Server := fun _ _ => .fail false

/-- A well-behaved server for a file with the given content: status 200
(or 206 for ranged requests), octet-stream content type, full delivery
of the requested bytes. -/
def happyServer (content : List Nat) : Server := fun _ range =>
  match range with
  | none => .resp ⟨200, "application/octet-stream", content, none⟩
  | some (s, _) => .resp ⟨206, "application/octet-stream", content.drop s.toNat, none⟩

/-- C2 (code evaluated at the failing input): with MaxAttempts = 1 and a
network where every attempt fails, DownloadFile performs 2 network
attempts — MaxAttempts + 1, because the loop checks
`attempt > MaxAttempts` only after attempt number `attempt` has already
run — and then returns the last attempt's error.  This contradicts the
config field's own documentation ("Maximum number of attempts") and the
spec's retry bound. -/
theorem C2_attempts_exceed_maxAttempts :
    (DownloadFile ⟨1, 1, 2⟩ alwaysFailServer [] ("x") 1).attempts = 2
    ∧ (DownloadFile ⟨1, 1, 2⟩ alwaysFailServer [] ("x") 1).result = some .doFail
    ∧ (⟨1, 1, 2⟩ : DownloadConfig).MaxAttempts = 1 := by
  refine ⟨by decide, by decide, rfl⟩

/-- C3 (code evaluated at the failing input): a pre-existing local file
of exactly expectedSize bytes whose hash mismatches is truncated, but
the offset variable is not reset, so every subsequent attempt fails the
`offset >= expectedSize` sanity check of doDownloadFile: the download
returns the invalid-offset error without a single HTTP request even
against a server that, as the second half shows, serves the same file
successfully from scratch. -/
theorem C3_truncation_keeps_stale_offset :
    ((DownloadFile ⟨1, 1, 2⟩ (happyServer [9]) [7] ("00") 1).result = some .invalidOffset
      ∧ (DownloadFile ⟨1, 1, 2⟩ (happyServer [9]) [7] ("00") 1).requests = 0)
    ∧ ((DownloadFile ⟨1, 1, 2⟩ (happyServer [9]) [] (HashBytes [9]) 1).result = none
      ∧ (DownloadFile ⟨1, 1, 2⟩ (happyServer [9]) [] (HashBytes [9]) 1).requests = 1) := by
  refine ⟨⟨by decide, by decide⟩, by decide, by decide⟩

/-- C4 (code evaluated at the failing input): with retryBaseDelay = 1
and retryWaitIncrementFactor = 2, the sleeps actually performed after
the first and second failed attempts are 2 and 4 — the code multiplies
waitTime by the factor before sleeping, so the wait after failed attempt
k is base * factor^k, not base * factor^(k-1); in particular the first
wait is base * factor, not base. -/
theorem C4_first_wait_already_multiplied :
    (DownloadFile ⟨2, 1, 2⟩ alwaysFailServer [] ("x") 1).waits = [2, 4]
    ∧ (⟨2, 1, 2⟩ : DownloadConfig).RetryBaseDelay = 1 := by
  constructor
  · have h : (DownloadFile ⟨2, 1, 2⟩ alwaysFailServer [] ("x") 1).waits
        = [(1 : ℚ) * 2, 1 * 2 * 2] := rfl
    rw [h]
    norm_num
  · rfl

/-- When the running offset already reaches expectedSize, every attempt
dies on doDownloadFile's sanity check before any request is issued, and
the retry loop eventually returns the invalid-offset error without
consulting the network. -/
theorem downloadLoop_stuck_invalid_offset (cfg : DownloadConfig) (server : Server)
    (cs : String) (size : Int) :
    ∀ (fuel attempt : Nat) (st : DlState) (w : ℚ) (attempts requests : Nat) (waits : List ℚ),
      st.offset ≥ size →
      cfg.MaxAttempts + 2 ≤ attempt + fuel →
      attempt ≤ cfg.MaxAttempts + 1 →
      (downloadLoop cfg server cs size fuel st attempt w attempts requests waits).result
          = some .invalidOffset
      ∧ (downloadLoop cfg server cs size fuel st attempt w attempts requests waits).requests
          = requests := by
  intro fuel
  induction fuel with
  | zero =>
    intro attempt st w attempts requests waits hoff hfa hcap
    omega
  | succ fuel ih =>
    intro attempt st w attempts requests waits hoff hfa hcap
    have hstep : doDownloadFile server attempt cs size st = (st, false, some .invalidOffset) := by
      unfold doDownloadFile
      rw [if_pos hoff]
    by_cases hgt : attempt > cfg.MaxAttempts
    · simp [downloadLoop, hstep, hgt]
    · have hrec := ih (attempt + 1) st (w * cfg.RetryWaitIncrementFactor) (attempts + 1)
        requests (waits ++ [w * cfg.RetryWaitIncrementFactor]) hoff (by omega) (by omega)
      simp only [downloadLoop, hstep]
      simp only [if_neg hgt]
      simpa using hrec

/-- C10: when expectedSize is 0, DownloadFile never performs a network
transfer: no HTTP request is ever issued, it succeeds (immediately) if
and only if the local file is empty and the expected checksum equals the
SHA-256 of the empty byte string case-insensitively, and in every other
case the retry loop returns the invalid-offset error from
doDownloadFile's sanity check. -/
theorem C10_expected_size_zero_never_transfers (cfg : DownloadConfig) (server : Server)
    (file : List Nat) (cs : String) :
    ((DownloadFile cfg server file cs 0).result = none ↔
      (file = [] ∧ HashEqual cs (HashBytes []) = true))
    ∧ (DownloadFile cfg server file cs 0).requests = 0
    ∧ (¬(file = [] ∧ HashEqual cs (HashBytes []) = true) →
      (DownloadFile cfg server file cs 0).result = some .invalidOffset) := by
  by_cases hf : file = []
  · subst hf
    by_cases hh : HashEqual cs (HashBytes []) = true
    · refine ⟨?_, ?_, ?_⟩
      · simp [DownloadFile, hh]
      · simp [DownloadFile, hh]
      · intro hcon
        exact absurd ⟨rfl, hh⟩ hcon
    · have hloop := downloadLoop_stuck_invalid_offset cfg server cs 0 (cfg.MaxAttempts + 1) 1
        ⟨[], [], 0⟩ cfg.RetryBaseDelay 0 0 [] (by simp) (by omega) (by omega)
      have hdf : DownloadFile cfg server [] cs 0 =
          downloadLoop cfg server cs 0 (cfg.MaxAttempts + 1) ⟨[], [], 0⟩ 1
            cfg.RetryBaseDelay 0 0 [] := by
        simp [DownloadFile, hh]
      refine ⟨?_, ?_, ?_⟩
      · rw [hdf, hloop.1]
        simp [hh]
      · rw [hdf, hloop.2]
      · intro _
        rw [hdf, hloop.1]
  · have h0 : 0 < file.length := List.length_pos.mpr hf
    have hdf : DownloadFile cfg server file cs 0 =
        downloadLoop cfg server cs 0 (cfg.MaxAttempts + 1) ⟨[], [], (file.length : Int)⟩ 1
          cfg.RetryBaseDelay 0 0 [] := by
      unfold DownloadFile
      rw [if_neg (by omega), if_pos (by omega)]
    have hloop := downloadLoop_stuck_invalid_offset cfg server cs 0 (cfg.MaxAttempts + 1) 1
      ⟨[], [], (file.length : Int)⟩ cfg.RetryBaseDelay 0 0 []
      (by simp only []; omega) (by omega) (by omega)
    refine ⟨?_, ?_, ?_⟩
    · rw [hdf, hloop.1]
      simp [hf]
    · rw [hdf, hloop.2]
    · intro _
      rw [hdf, hloop.1]

/-- Witness for C10: a one-byte local file with expectedSize 0 fails
with the invalid-offset error, and the success criterion is indeed
violated for it. -/
theorem C10_expected_size_zero_never_transfers_witness :
    ¬(([0] : List Nat) = [] ∧ HashEqual ("") (HashBytes []) = true)
    ∧ (DownloadFile ⟨1, 1, 2⟩ alwaysFailServer [0] ("") 0).result = some .invalidOffset :=
  ⟨by decide,
   (C10_expected_size_zero_never_transfers ⟨1, 1, 2⟩ alwaysFailServer [0] ("")).2.2 (by decide)⟩

/-! ### C5: duplicate paths and where they are rejected -/

/-- The bytes of the JSON payload
`[{"Path":"a"},{"Path":"a"}]` (braces written with escapes). -/
def dupPayloadBytes : List Nat :=
  ("[\x7b\"Path\":\"a\"\x7d,\x7b\"Path\":\"a\"\x7d]").data.map Char.toNat

/-- What `encoding/json` produces for that payload: two records with
path "a" and zero values for every absent field. -/
def dupUnmarshal : List Nat → Except String (List rawInstruction) := fun bytes =>
  if bytes = dupPayloadBytes then
    .ok [⟨"a", "", none, "", none, false⟩, ⟨"a", "", none, "", none, false⟩]
  else .error ("unexpected payload")

deriving instance DecidableEq for Except

/-- Counterexample for C5: a payload with two records of the same path,
presented with its correct SHA-256, is accepted by DecodeInstructions —
the decoder performs no duplicate check. -/
theorem C5_counterexample_duplicates_accepted :
    DecodeInstructions dupUnmarshal dupPayloadBytes (HashBytes dupPayloadBytes) =
      .ok [⟨"a", "", none, "", none⟩, ⟨"a", "", none, "", none⟩] := by decide

theorem findDupAux_none_iff (l : List Instruction) :
    ∀ seen, findDuplicateAux seen l = none ↔
      ((l.map fun i => i.Path).Nodup ∧ ∀ x ∈ l.map fun i => i.Path, x ∉ seen) := by
  induction l with
  | nil => intro seen; simp [findDuplicateAux]
  | cons i rest ih =>
    intro seen
    by_cases hmem : i.Path ∈ seen
    · constructor
      · intro h
        rw [findDuplicateAux, if_pos hmem] at h
        exact absurd h (by simp)
      · rintro ⟨_, hall⟩
        exact absurd hmem (hall i.Path (by simp))
    · rw [findDuplicateAux, if_neg hmem, ih (i.Path :: seen)]
      simp only [List.map_cons, List.nodup_cons, List.mem_cons, List.mem_map]
      constructor
      · rintro ⟨hnd, hall⟩
        refine ⟨⟨?_, hnd⟩, ?_⟩
        · intro hc
          have := hall i.Path (by simpa using hc)
          simp at this
        · intro x hx
          rcases hx with ⟨j, hj, rfl⟩ | hx
          · exact hmem
          · intro hs
            exact hall x hx (by simp [hs])
      · rintro ⟨⟨hni, hnd⟩, hall⟩
        refine ⟨hnd, ?_⟩
        intro x hx hc
        rcases hc with rfl | hc
        · exact hni (by simpa using hx)
        · exact hall x (Or.inr hx) hc

theorem findDupAux_some (l : List Instruction) :
    ∀ seen p, findDuplicateAux seen l = some p →
      (p ∈ seen ∧ p ∈ (l.map fun i => i.Path)) ∨ 2 ≤ (l.map fun i => i.Path).count p := by
  induction l with
  | nil => intro seen p h; simp [findDuplicateAux] at h
  | cons i rest ih =>
    intro seen p h
    rw [findDuplicateAux] at h
    by_cases hmem : i.Path ∈ seen
    · rw [if_pos hmem] at h
      injection h with h
      subst h
      exact Or.inl ⟨hmem, by simp⟩
    · rw [if_neg hmem] at h
      rcases ih (i.Path :: seen) p h with ⟨hseen, hmap⟩ | hcount
      · rcases List.mem_cons.mp hseen with hpe | hseen2
        · right
          rw [List.map_cons, List.count_cons]
          have hpos : 0 < (rest.map fun j => j.Path).count p := List.count_pos_iff.mpr hmap
          have hbeq : (i.Path == p) = true := beq_iff_eq.mpr hpe.symm
          rw [hbeq]
          simp only [if_true]
          omega
        · exact Or.inl ⟨hseen2, by simp [hmap]⟩
      · right
        rw [List.map_cons, List.count_cons]
        omega

/-- C5 (amended): DecodeInstructions itself performs no duplicate-path
check — duplicating an accepted record still decodes — and duplicate
paths are instead rejected by the duplicate scan at the start of
runVerifyPhase, which returns an error exactly when the path list has a
duplicate, naming a path that occurs at least twice. -/
theorem C5_duplicates_rejected_by_verify_phase (instructions : List Instruction)
    (ri : rawInstruction) (rest : List rawInstruction) (d : DecodedInstruction)
    (ds : List DecodedInstruction) :
    (decodeLoop (ri :: rest) = .ok (d :: ds) →
      decodeLoop (ri :: ri :: rest) = .ok (d :: d :: ds))
    ∧ (findDuplicate instructions = none ↔ (instructions.map fun i => i.Path).Nodup)
    ∧ (∀ p, findDuplicate instructions = some p →
        2 ≤ (instructions.map fun i => i.Path).count p) := by
  refine ⟨?_, ?_, ?_⟩
  · intro h0
    have c1 : filepathIsAbs (replaceBackslash ri.Path) = false := by
      by_contra hc
      rw [Bool.not_eq_false] at hc
      simp [decodeLoop, hc] at h0
    have c2 : filepathIsLocal (replaceBackslash ri.Path) = true := by
      by_contra hc
      rw [Bool.not_eq_true] at hc
      simp [decodeLoop, c1, hc] at h0
    have c3 : (ri.HasDelta && ri.DeltaHash == none) = false := by
      by_contra hc
      rw [Bool.not_eq_false] at hc
      simp [decodeLoop, c1, c2, hc] at h0
    have c4 : (!ri.HasDelta && ri.DeltaHash != none) = false := by
      by_contra hc
      rw [Bool.not_eq_false] at hc
      simp [decodeLoop, c1, c2, c3, hc] at h0
    cases hrest : decodeLoop rest with
    | error e =>
      rw [decodeLoop] at h0
      simp only [c1, c2, c3, c4, hrest] at h0
      simp at h0
    | ok instrs =>
      rw [decodeLoop] at h0
      simp only [c1, c2, c3, c4, hrest, Bool.false_eq_true, if_false, Bool.not_true] at h0
      simp at h0
      obtain ⟨hd, hds⟩ := h0
      simp only [decodeLoop, c1, c2, c3, c4, hrest, Bool.false_eq_true, if_false]
      simp [hd, hds]
  · rw [findDuplicate, findDupAux_none_iff instructions []]
    simp
  · intro p h
    rcases findDupAux_some instructions [] p h with ⟨hseen, _⟩ | hcount
    · simp at hseen
    · exact hcount

/-- Witness for C5 (amended): a two-element instruction list repeating
path "a" is flagged by the verify-phase scan, naming "a", which indeed
occurs twice. -/
theorem C5_duplicates_rejected_by_verify_phase_witness :
    findDuplicate
        [⟨"a", "", some ("h1"), some ("c1"), none, 0, 0, 0⟩,
         ⟨"a", "", some ("h2"), some ("c2"), none, 0, 0, 0⟩] = some ("a")
    ∧ 2 ≤ (([⟨"a", "", some ("h1"), some ("c1"), none, 0, 0, 0⟩,
            ⟨"a", "", some ("h2"), some ("c2"), none, 0, 0, 0⟩] : List Instruction).map
          fun i => i.Path).count ("a") :=
  ⟨by decide,
   (C5_duplicates_rejected_by_verify_phase
      [⟨"a", "", some ("h1"), some ("c1"), none, 0, 0, 0⟩,
       ⟨"a", "", some ("h2"), some ("c2"), none, 0, 0, 0⟩]
      ⟨"", "", none, "", none, false⟩ [] ⟨"", "", none, "", none⟩ []).2.2 ("a") (by decide)⟩

/-! ### C6 / C7: structure of the planned actions -/

/-- Every iteration of the DetermineActions loop either leaves the state
unchanged, appends the path of a delete instruction found on disk to the
deletion list, or (for a non-delete instruction) inserts one download
keyed by its own checksum and one update keyed by the instruction's
path. -/
theorem determineStep_cases (existingFiles : List (String × BasicFileInfo))
    (fileChecksums : List (String × String)) (idx : Nat) (instr : Instruction)
    (st : DetState) :
    (determineStep existingFiles fileChecksums idx instr st = st)
    ∨ ((instr.NewHash = none ∨ instr.CompressedHash = none) ∧
        determineStep existingFiles fileChecksums idx instr st =
          { st with toDelete := st.toDelete ++ [instr.Path] })
    ∨ (instr.NewHash ≠ none ∧ instr.CompressedHash ≠ none ∧
        ∃ k v u, v.Checksum = k ∧ u.FilePath = instr.Path ∧
          determineStep existingFiles fileChecksums idx instr st =
            { st with
              toDownloadMap := insertA k v st.toDownloadMap
              toUpdateMap := insertA instr.Path u st.toUpdateMap }) := by
  rcases hnh : instr.NewHash with _ | nh
  · by_cases hf : containsKey existingFiles instr.Path = true
    · right; left
      refine ⟨Or.inl rfl, ?_⟩
      simp [determineStep, hnh, hf]
    · left
      rw [Bool.not_eq_true] at hf
      simp [determineStep, hnh, hf]
  · rcases hch : instr.CompressedHash with _ | ch
    · by_cases hf : containsKey existingFiles instr.Path = true
      · right; left
        refine ⟨Or.inr rfl, ?_⟩
        simp [determineStep, hnh, hch, hf]
      · left
        rw [Bool.not_eq_true] at hf
        simp [determineStep, hnh, hch, hf]
    · by_cases hskip :
        (containsKey existingFiles instr.Path &&
          HashEqual (lookupD fileChecksums instr.Path ("")) nh) = true
      · left
        simp [determineStep, hnh, hch, hskip]
      · rw [Bool.not_eq_true] at hskip
        rcases hdh : instr.DeltaHash with _ | dh
        · right; right
          refine ⟨by simp [hnh], by simp [hch], ch,
            ⟨goPathJoin ("full") nh, goPathJoin ("patch") nh, ch, instr.FullReplaceSize⟩,
            ⟨goPathJoin ("patch") nh, instr.Path,
             goPathJoin ("patch/apply") (pad5 idx ++ "_" ++ nh), false, nh, instr.FileSize⟩,
            rfl, rfl, ?_⟩
          simp [determineStep, hnh, hch, hskip, hdh]
        · by_cases hdc :
            (containsKey existingFiles instr.Path &&
              HashEqual (lookupD fileChecksums instr.Path ("")) instr.OldHash) = true
          · right; right
            refine ⟨by simp [hnh], by simp [hch], dh,
              ⟨goPathJoin ("delta") (nh ++ "_from_" ++ instr.OldHash),
               goPathJoin ("patch") (nh ++ "_from_" ++ instr.OldHash), dh, instr.DeltaSize⟩,
              ⟨goPathJoin ("patch") (nh ++ "_from_" ++ instr.OldHash), instr.Path,
               goPathJoin ("patch/apply") (pad5 idx ++ "_" ++ nh), true, nh, instr.FileSize⟩,
              rfl, rfl, ?_⟩
            simp [determineStep, hnh, hch, hskip, hdh, hdc]
          · rw [Bool.not_eq_true] at hdc
            right; right
            refine ⟨by simp [hnh], by simp [hch], ch,
              ⟨goPathJoin ("full") nh, goPathJoin ("patch") nh, ch, instr.FullReplaceSize⟩,
              ⟨goPathJoin ("patch") nh, instr.Path,
               goPathJoin ("patch/apply") (pad5 idx ++ "_" ++ nh), false, nh, instr.FileSize⟩,
              rfl, rfl, ?_⟩
            simp [determineStep, hnh, hch, hskip, hdh, hdc]

/-- The loop of DetermineActions preserves: download-map values carry
their own key as checksum, update-map values carry their own key as file
path, and both maps have unique keys. -/
theorem determineGo_inv (existingFiles : List (String × BasicFileInfo))
    (fileChecksums : List (String × String)) :
    ∀ (l : List Instruction) (idx : Nat) (st : DetState),
      (∀ kv ∈ st.toDownloadMap, kv.2.Checksum = kv.1) →
      ((st.toDownloadMap.map Prod.fst).Nodup) →
      (∀ kv ∈ st.toUpdateMap, kv.2.FilePath = kv.1) →
      ((st.toUpdateMap.map Prod.fst).Nodup) →
      (∀ kv ∈ (determineGo existingFiles fileChecksums idx l st).toDownloadMap,
        kv.2.Checksum = kv.1)
      ∧ (((determineGo existingFiles fileChecksums idx l st).toDownloadMap.map Prod.fst).Nodup)
      ∧ (∀ kv ∈ (determineGo existingFiles fileChecksums idx l st).toUpdateMap,
        kv.2.FilePath = kv.1)
      ∧ (((determineGo existingFiles fileChecksums idx l st).toUpdateMap.map Prod.fst).Nodup) := by
  intro l
  induction l with
  | nil =>
    intro idx st h1 h2 h3 h4
    exact ⟨h1, h2, h3, h4⟩
  | cons i rest ih =>
    intro idx st h1 h2 h3 h4
    rw [determineGo]
    rcases determineStep_cases existingFiles fileChecksums idx i st with hc | ⟨_, hc⟩ |
      ⟨_, _, k, v, u, hv, hu, hc⟩
    · rw [hc]
      exact ih (idx + 1) st h1 h2 h3 h4
    · rw [hc]
      exact ih (idx + 1) _ h1 h2 h3 h4
    · rw [hc]
      refine ih (idx + 1) _ ?_ ?_ ?_ ?_
      · exact insertA_forall (fun kv => kv.2.Checksum = kv.1) k v st.toDownloadMap h1 hv
      · exact insertA_keys_nodup k v st.toDownloadMap h2
      · exact insertA_forall (fun kv => kv.2.FilePath = kv.1) i.Path u st.toUpdateMap h3 hu
      · exact insertA_keys_nodup i.Path u st.toUpdateMap h4

/-- Sorting a coherent unique-key map yields values strictly sorted by
the coherent field. -/
theorem mapToSortedSlice_pairwise {V : Type} (f : V → String) (m : List (String × V))
    (h1 : ∀ kv ∈ m, f kv.2 = kv.1) (h2 : (m.map Prod.fst).Nodup) :
    (mapToSortedSlice m).Pairwise
      (fun a b => charListLe (f a).data (f b).data = true ∧ f a ≠ f b) := by
  have hsort : (List.insertionSort keyLe m).Pairwise keyLe :=
    List.sorted_insertionSort keyLe m
  have hperm : (List.insertionSort keyLe m).Perm m := List.perm_insertionSort keyLe m
  have hnodup : ((List.insertionSort keyLe m).map Prod.fst).Nodup :=
    ((hperm.map Prod.fst).symm).nodup h2
  have hco : ∀ kv ∈ List.insertionSort keyLe m, f kv.2 = kv.1 :=
    fun kv hkv => h1 kv (hperm.mem_iff.mp hkv)
  have hne : (List.insertionSort keyLe m).Pairwise (fun a b => a.1 ≠ b.1) :=
    List.pairwise_map.mp hnodup
  have hcomb := hsort.and hne
  rw [mapToSortedSlice]
  rw [List.pairwise_map]
  refine hcomb.imp_of_mem ?_
  intro a b ha hb hab
  rw [hco a ha, hco b hb]
  exact ⟨hab.1, hab.2⟩

/-- C6: DetermineActions output is canonical: ToDownload is strictly
ascending by checksum (hence holds at most one entry per checksum, so
repeated references to the same patch content yield one download),
ToUpdate is strictly ascending by file path (at most one entry per
path), and ToDelete is sorted lexicographically. -/
theorem C6_output_canonical (instructions : List Instruction) (manifest : Manifest)
    (existingFiles : List (String × BasicFileInfo))
    (fileChecksums : List (String × String)) :
    (DetermineActions instructions manifest existingFiles fileChecksums).ToDownload.Pairwise
      (fun a b => charListLe a.Checksum.data b.Checksum.data = true ∧ a.Checksum ≠ b.Checksum)
    ∧ (DetermineActions instructions manifest existingFiles fileChecksums).ToUpdate.Pairwise
      (fun a b => charListLe a.FilePath.data b.FilePath.data = true ∧ a.FilePath ≠ b.FilePath)
    ∧ (DetermineActions instructions manifest existingFiles fileChecksums).ToDelete.Pairwise
      (fun a b => charListLe a.data b.data = true) := by
  obtain ⟨h1, h2, h3, h4⟩ := determineGo_inv existingFiles fileChecksums instructions 0
    ⟨[], [], []⟩ (by simp) (by simp) (by simp) (by simp)
  refine ⟨?_, ?_, ?_⟩
  · exact mapToSortedSlice_pairwise (fun v => v.Checksum) _ h1 h2
  · exact mapToSortedSlice_pairwise (fun v => v.FilePath) _ h3 h4
  · exact List.sorted_insertionSort strLe _

/-- Origin tracking: every update-map key comes from a non-delete
instruction with that path, and every deletion entry comes from a delete
instruction with that path. -/
theorem determineGo_origins (existingFiles : List (String × BasicFileInfo))
    (fileChecksums : List (String × String)) (all : List Instruction) :
    ∀ (l : List Instruction) (idx : Nat) (st : DetState),
      (∀ i ∈ l, i ∈ all) →
      (∀ k ∈ st.toUpdateMap.map Prod.fst,
        ∃ i ∈ all, i.Path = k ∧ i.NewHash ≠ none ∧ i.CompressedHash ≠ none) →
      (∀ p ∈ st.toDelete,
        ∃ i ∈ all, i.Path = p ∧ (i.NewHash = none ∨ i.CompressedHash = none)) →
      (∀ k ∈ (determineGo existingFiles fileChecksums idx l st).toUpdateMap.map Prod.fst,
        ∃ i ∈ all, i.Path = k ∧ i.NewHash ≠ none ∧ i.CompressedHash ≠ none)
      ∧ (∀ p ∈ (determineGo existingFiles fileChecksums idx l st).toDelete,
        ∃ i ∈ all, i.Path = p ∧ (i.NewHash = none ∨ i.CompressedHash = none)) := by
  intro l
  induction l with
  | nil =>
    intro idx st _ h2 h3
    exact ⟨h2, h3⟩
  | cons i rest ih =>
    intro idx st hsub h2 h3
    have hi : i ∈ all := hsub i (by simp)
    have hsub2 : ∀ j ∈ rest, j ∈ all := fun j hj => hsub j (by simp [hj])
    rw [determineGo]
    rcases determineStep_cases existingFiles fileChecksums idx i st with hc | ⟨hdel, hc⟩ |
      ⟨hnn, hcn, k, v, u, _, _, hc⟩
    · rw [hc]
      exact ih (idx + 1) st hsub2 h2 h3
    · rw [hc]
      refine ih (idx + 1) _ hsub2 h2 ?_
      intro p hp
      rcases List.mem_append.mp hp with hp | hp
      · exact h3 p hp
      · simp only [List.mem_singleton] at hp
        exact ⟨i, hi, hp.symm ▸ rfl, hdel⟩
    · rw [hc]
      refine ih (idx + 1) _ hsub2 ?_ h3
      intro k2 hk2
      rcases keys_insertA i.Path u st.toUpdateMap k2 hk2 with hk2 | hk2
      · exact ⟨i, hi, hk2.symm, hnn, hcn⟩
      · exact h2 k2 hk2

/-- C7: for instruction lists without duplicate paths, the planned
actions are disjoint by effect: no file path occurs both in an update
and in the deletion list; and a delete instruction never contributes a
download (the loop body leaves the download map unchanged for it). -/
theorem C7_update_delete_disjoint (instructions : List Instruction) (manifest : Manifest)
    (existingFiles : List (String × BasicFileInfo))
    (fileChecksums : List (String × String))
    (hnd : (instructions.map fun i => i.Path).Nodup) :
    (∀ u ∈ (DetermineActions instructions manifest existingFiles fileChecksums).ToUpdate,
      u.FilePath ∉ (DetermineActions instructions manifest existingFiles fileChecksums).ToDelete)
    ∧ (∀ (st : DetState) (idx : Nat) (instr : Instruction),
        instr.NewHash = none ∨ instr.CompressedHash = none →
        (determineStep existingFiles fileChecksums idx instr st).toDownloadMap =
          st.toDownloadMap) := by
  constructor
  · intro u hu hdel
    obtain ⟨_, _, hco, _⟩ := determineGo_inv existingFiles fileChecksums instructions 0
      ⟨[], [], []⟩ (by simp) (by simp) (by simp) (by simp)
    obtain ⟨horig_u, horig_d⟩ := determineGo_origins existingFiles fileChecksums instructions
      instructions 0 ⟨[], [], []⟩ (fun _ h => h) (by simp) (by simp)
    set final := determineGo existingFiles fileChecksums 0 instructions ⟨[], [], []⟩ with hfinal
    have hu2 : u ∈ mapToSortedSlice final.toUpdateMap := hu
    rw [mapToSortedSlice] at hu2
    rcases List.mem_map.mp hu2 with ⟨kv, hkv, hkv2⟩
    have hkvm : kv ∈ final.toUpdateMap :=
      (List.perm_insertionSort keyLe final.toUpdateMap).mem_iff.mp hkv
    have hkey : kv.2.FilePath = kv.1 := hco kv hkvm
    have hukey : u.FilePath = kv.1 := by rw [← hkv2, hkey]
    have hkmem : kv.1 ∈ final.toUpdateMap.map Prod.fst := List.mem_map_of_mem Prod.fst hkvm
    obtain ⟨i1, hi1, hp1, hn1, hc1⟩ := horig_u kv.1 hkmem
    have hdel2 : u.FilePath ∈ final.toDelete :=
      (List.perm_insertionSort strLe final.toDelete).mem_iff.mp hdel
    obtain ⟨i2, hi2, hp2, hd2⟩ := horig_d u.FilePath hdel2
    have hpp : i1.Path = i2.Path := by rw [hp1, hp2, hukey]
    have heq : i1 = i2 := List.inj_on_of_nodup_map hnd hi1 hi2 hpp
    rw [heq] at hn1 hc1
    rcases hd2 with hd2 | hd2
    · exact hn1 hd2
    · exact hc1 hd2
  · intro st idx instr hdel
    rcases hnh : instr.NewHash with _ | nh
    · by_cases hf : containsKey existingFiles instr.Path = true
      · simp [determineStep, hnh, hf]
      · rw [Bool.not_eq_true] at hf
        simp [determineStep, hnh, hf]
    · rcases hch : instr.CompressedHash with _ | ch
      · by_cases hf : containsKey existingFiles instr.Path = true
        · simp [determineStep, hnh, hch, hf]
        · rw [Bool.not_eq_true] at hf
          simp [determineStep, hnh, hch, hf]
      · rw [hnh, hch] at hdel
        rcases hdel with hdel | hdel <;> exact absurd hdel (by simp)

/-- Witness for C7: a single delete instruction for an existing file
produces no updates at all (so the disjointness statement holds at this
input) and its loop step leaves the download map unchanged. -/
theorem C7_update_delete_disjoint_witness :
    (([⟨"a", "", none, none, none, 0, 0, 0⟩] : List Instruction).map fun i => i.Path).Nodup
    ∧ (∀ u ∈ (DetermineActions [⟨"a", "", none, none, none, 0, 0, 0⟩] ⟨"p", []⟩
          [("a", ⟨3⟩)] []).ToUpdate,
        u.FilePath ∉ (DetermineActions [⟨"a", "", none, none, none, 0, 0, 0⟩] ⟨"p", []⟩
          [("a", ⟨3⟩)] []).ToDelete) :=
  ⟨by decide,
   (C7_update_delete_disjoint [⟨"a", "", none, none, none, 0, 0, 0⟩] ⟨"p", []⟩
      [("a", ⟨3⟩)] [] (by decide)).1⟩
